import Mathlib

/-!
Verification of the tweet-emoji-recognition classifier wrapper
(`tweetnlp/text_classification/model.py`).

The embedding models the pure computational content of the module:

* `preprocess`: the mention regex rewrite `re.sub(r"@[A-Z,0-9]+", "@user", t)`
  followed by replacing every URL found by the external `urlextract` library
  with the literal `"http"`.  The URL detector is a third-party dependency,
  so it is a function parameter.
* `Classifier.predict`: single-vs-list input handling, preprocessing,
  fixed-size chunking (`_index = list(range(0, len(text), batch_size)) +
  [len(text) + 1]`), the per-chunk encode/forward/sigmoid-or-softmax pipeline
  (opaque, modelled as a per-example function `String → List ℚ` per the
  module's contract), and the four output-formatting comprehensions.
* `download_id2label`: cache-or-fetch of the tab-separated label mapping,
  modelled over explicit cache/resource state.
* the load-with-retry logic of `Classifier.__init__`.

Python exceptions (`range` with zero step, `max` of an empty list) are
modelled by `Option`.  Machine floats are modelled by `ℚ`; the threshold
`0.5` and the comparisons are exact in both.
-/

namespace TweetNLP

/-- Characters matched by the character class of the mention rewrite
`re.sub(r"@[A-Z,0-9]+", "@user", text)`: uppercase letters `A`-`Z`, the
literal comma, and digits `0`-`9` (the class does not contain lowercase
letters). -/
def isMentionChar (c : Char) : Bool :=
  decide (('A' ≤ c ∧ c ≤ 'Z') ∨ c = ',' ∨ ('0' ≤ c ∧ c ≤ '9'))

/-- The replacement text of the mention rewrite, `"@user"`. -/
def userTok : List Char := ['@', 'u', 's', 'e', 'r']

/-- `re.sub(r"@[A-Z,0-9]+", "@user", ·)` on a character list: scan left to
right; at a `@` followed by a non-empty maximal run of `isMentionChar`
characters, emit `"@user"` and continue after the run (the replacement is not
rescanned, as in `re.sub`); otherwise copy the character.  The fuel argument
only serves structural termination: every step consumes at least one input
character, so `l.length` fuel always suffices (see `mentionSubF_fuel`). -/
def mentionSubF : Nat → List Char → List Char
  | _, [] => []
  | 0, l => l
  | fuel + 1, c :: rest =>
    if c = '@' ∧ rest.takeWhile isMentionChar ≠ [] then
      userTok ++ mentionSubF fuel (rest.dropWhile isMentionChar)
    else
      c :: mentionSubF fuel rest

/-- The mention rewrite on a character list. -/
def mentionSub (l : List Char) : List Char := mentionSubF l.length l

/-- The mention rewrite on strings. -/
def mentionSubStr (s : String) : String := String.mk (mentionSub s.toList)

/-- Python `str.replace` for a non-empty pattern: replace every non-overlapping
occurrence, left to right.  Fuel as in `mentionSubF`. -/
def pyReplaceF (pat rep : List Char) : Nat → List Char → List Char
  | _, [] => []
  | 0, l => l
  | fuel + 1, c :: rest =>
    if pat.isPrefixOf (c :: rest) ∧ pat ≠ [] then
      rep ++ pyReplaceF pat rep fuel ((c :: rest).drop pat.length)
    else
      c :: pyReplaceF pat rep fuel rest

/-- Python `str.replace`: for the empty pattern Python inserts the replacement
at every position (`"ab".replace("", "r") = "rarbr"`); otherwise every
non-overlapping occurrence is replaced left to right. -/
def pyReplace (l pat rep : List Char) : List Char :=
  if pat = [] then rep ++ l.flatMap (fun c => c :: rep)
  else pyReplaceF pat rep l.length l

/-- Python `str.replace` on strings. -/
def pyReplaceStr (s pat rep : String) : String :=
  String.mk (pyReplace s.toList pat.toList rep.toList)

/-- `preprocess` from the source, parametric in the external URL detector
(`urlextract.URLExtract().find_urls`, a third-party library): first the
mention regex rewrite, then each detected URL is replaced (all occurrences)
by `"http"`.  The `except re.error` handler in the source is dead code:
`str.replace` never raises `re.error`, so no failure case exists. -/
def preprocess (findUrls : String → List String) (text : String) : String :=
  let t := mentionSubStr text
  (findUrls t).foldl (fun cur url => pyReplaceStr cur url "http") t

/-- Python slice `l[a:b]` for nonnegative bounds (out-of-range bounds clamp). -/
def pySlice (l : List α) (a b : Nat) : List α := (l.drop a).take (b - a)

/-- `list(range(0, n, b))` for a positive step `b`: the chunk start offsets
`0, b, 2b, …` below `n`. -/
def chunkStarts (n b : Nat) : List Nat :=
  (List.range ((n + b - 1) / b)).map (fun i => i * b)

/-- `_index = list(range(0, len(text), batch_size)) + [len(text) + 1]`. -/
def chunkIndex (n b : Nat) : List Nat := chunkStarts n b ++ [n + 1]

/-- The batching loop of `Classifier.predict`: `for i in range(len(_index) - 1)`
process the slice `text[_index[i]:_index[i+1]]` and append the chunk's results
in order (`probs += …`).  The per-chunk tokenize/forward/activation pipeline
is the opaque per-example capability `fwd` applied to each element of the
chunk. -/
def predictProbs (fwd : String → π) (texts : List String) (b : Nat) : List π :=
  let idx := chunkIndex texts.length b
  (List.range (idx.length - 1)).flatMap
    (fun i => (pySlice texts (idx.getD i 0) (idx.getD (i + 1) 0)).map fwd)

/-- The `label` field of a result record: a single label string in
single-label mode, a list of label strings in multi-label mode. -/
inductive LabelField
  | single (label : String)
  | multi (labels : List String)
deriving DecidableEq

/-- One result record of `predict`: the Python dict
`{'label': …}` or `{'label': …, 'probability': {…}}`.  The probability
mapping is a Python dict, modelled as its key-value list in insertion order. -/
structure PredictionRecord where
  label : LabelField
  probability : Option (List (String × ℚ))
deriving DecidableEq

instance : Inhabited PredictionRecord := ⟨⟨LabelField.single "", none⟩⟩

/-- The return value of `predict`: a bare record for a single-string input,
a list of records for a sequence input. -/
inductive PredictOutput
  | record (r : PredictionRecord)
  | records (rs : List PredictionRecord)
deriving DecidableEq

/-- Insertion into a Python dict: overwrite in place if the key is present,
append otherwise. -/
def pyDictInsert (d : List (String × ℚ)) (k : String) (v : ℚ) :
    List (String × ℚ) :=
  if d.any (fun kv => kv.1 == k) then
    d.map (fun kv => if kv.1 == k then (k, v) else kv)
  else d ++ [(k, v)]

/-- A Python dict comprehension over a key-value list (later occurrences of a
key overwrite earlier ones). -/
def pyDict (l : List (String × ℚ)) : List (String × ℚ) :=
  l.foldl (fun d kv => pyDictInsert d kv.1 kv.2) []

/-- The threshold literal `0.5` of the multi-label branch (exactly
representable as a float and as a rational; see `half_eq`).  Written as a raw
`Rat` structure so that comparisons against it evaluate by kernel
reduction. -/
def half : ℚ := ⟨1, 2, by omega, by simp⟩

/-- Python `max(p)` on a list of numbers: `ValueError` on an empty list
(`none`).  The fold keeps the current value on ties, as `max` does; the
result is the maximum value of the list. -/
def pyMax : List ℚ → Option ℚ
  | [] => none
  | a :: l => some (l.foldl (fun acc x => if acc < x then x else acc) a)

/-- `p.index(max(p))`: the first index at which a Python list of numbers
attains its maximum value; `max` of an empty list raises `ValueError`
(`none`). -/
def pyMaxIndex (l : List ℚ) : Option Nat := (pyMax l).map (fun v => l.indexOf v)

/-- The classifier state that `predict` reads: `fwd` is the opaque
per-example encode→forward→(sigmoid|softmax) pipeline of the underlying
pretrained model (tokenizer, weights, activation), producing the probability
vector of one preprocessed string; `findUrls` is the external URL detector
used by `preprocess`; `idToLabel` is the `id_to_label` mapping, total on
indices (its keys are the dense range `"0".."N-1"` by the label-store
invariant); `multiLabel` is the `multi_label` flag fixed at construction. -/
structure Classifier where
  fwd : String → List ℚ
  findUrls : String → List String
  idToLabel : Nat → String
  multiLabel : Bool

/-- Post-processing of one probability vector into a `PredictionRecord`,
as in the four comprehensions at the end of `Classifier.predict`:
multi-label mode collects every label with probability strictly above `0.5`;
single-label mode takes `id_to_label[str(p.index(max(p)))]`, which raises on
an empty vector (`none`); the probability dict is attached exactly when
`return_probability` is set. -/
def formatRecord (m : Classifier) (returnProbability : Bool) (pr : List ℚ) :
    Option PredictionRecord :=
  let probDict := pyDict (pr.enum.map (fun np => (m.idToLabel np.1, np.2)))
  if m.multiLabel then
    some { label := LabelField.multi
             ((pr.enum.filter (fun np => decide (half < np.2))).map
               (fun np => m.idToLabel np.1)),
           probability := if returnProbability then some probDict else none }
  else
    match pyMaxIndex pr with
    | none => none
    | some j =>
      some { label := LabelField.single (m.idToLabel j),
             probability := if returnProbability then some probDict else none }

/-- A Python list comprehension whose body may raise: `none` if any element
fails. -/
def mapOption (f : α → Option β) : List α → Option (List β)
  | [] => some []
  | a :: l =>
    match f a, mapOption f l with
    | some b, some bs => some (b :: bs)
    | _, _ => none

/-- The argument of `predict`: a single string or a list of strings
(`type(text) is str`). -/
inductive TextInput
  | str (s : String)
  | list (l : List String)

/-- `Classifier.predict`.  `batchSize = none` is Python `batch_size=None`
(defaulting to the length of the preprocessed input list).  A `none` result
models an uncaught Python exception: `range` with step `0` (`ValueError`
when the resolved batch size is zero), or `max` of an empty probability
vector in single-label mode.  Negative batch sizes are not modelled; the
claims concern `None` and `k ≥ 1`. -/
def predict (m : Classifier) (text : TextInput) (batchSize : Option Nat)
    (returnProbability : Bool) : Option PredictOutput :=
  let singleInputFlag : Bool := match text with | .str _ => true | .list _ => false
  let texts := match text with | .str s => [s] | .list l => l
  let texts := texts.map (preprocess m.findUrls)
  let b := batchSize.getD texts.length
  if b = 0 then none
  else
    match mapOption (formatRecord m returnProbability) (predictProbs m.fwd texts b) with
    | none => none
    | some out =>
      if singleInputFlag then
        match out with
        | [] => none
        | r :: _ => some (PredictOutput.record r)
      else some (PredictOutput.records out)

/-- Split a character list at every occurrence of `sep`
(Python `str.split(sep)` for a one-character separator; no collapsing,
`"".split(sep) = [""]`). -/
def splitOnChar (sep : Char) : List Char → List (List Char)
  | [] => [[]]
  | c :: rest =>
    let r := splitOnChar sep rest
    if c = sep then [] :: r
    else
      match r with
      | [] => [[c]]
      | h :: t => (c :: h) :: t

/-- Parsing of the downloaded mapping resource in `download_id2label`:
`f.read().decode('utf-8').split("\n")`, each line read as a tab-separated row
(`csv.reader(…, delimiter='\t')`; csv quoting is not modelled, fields are
taken verbatim, which agrees on quote-free data), keeping the second column
of every row that has one (`row[1] for row in csvreader if len(row) > 1`). -/
def parseMapping (content : String) : List String :=
  ((splitOnChar '\x0a' content.toList).map (splitOnChar '\x09')).filterMap
    (fun row => (row.get? 1).map String.mk)

/-- `download_id2label`, modelled over explicit cache and network state:
`cached` is the content of the per-task cache file when it exists
(`os.path.exists(path)`), `resource` the body of the remote mapping file.
Returns the mapping, the cache file content after the call, and whether the
network fetch ran. -/
def download_id2label (cached : Option (List (String × String)))
    (resource : String) : List (String × String) × List (String × String) × Bool :=
  match cached with
  | some m => (m, m, false)
  | none =>
    let labels := parseMapping resource
    let id2label := labels.enum.map (fun nl => (toString nl.1, nl.2))
    (id2label, id2label, true)

/-- The load logic of `Classifier.__init__`: `load_model(model_name)` is tried
first (network permitted, `local_files_only=False` being the default of
`load_model`); on any exception exactly one retry
`load_model(model_name, local_files_only=True)` runs, and its own outcome —
success or exception — is returned to the caller unhandled.
`loadModel b` is the outcome of `load_model` with `local_files_only = b`. -/
def initLoadModel (loadModel : Bool → Except ε α) : Except ε α :=
  match loadModel false with
  | Except.ok v => Except.ok v
  | Except.error _ => loadModel true

/-! ### Helper lemmas -/

/-- The threshold literal equals one half. -/
theorem half_eq : half = 1 / 2 := by
  apply Rat.ext <;> norm_num [half]

theorem dropWhileLen_le (p : α → Bool) (l : List α) :
    (List.dropWhile p l).length ≤ l.length := by
  induction l with
  | nil => simp [List.dropWhile]
  | cons a t ih =>
    rw [List.dropWhile_cons]
    by_cases h : p a = true
    · simp only [h, if_true, List.length_cons]
      omega
    · simp [h]

theorem mentionSubF_fuel (f1 : Nat) :
    ∀ (f2 : Nat) (l : List Char), l.length ≤ f1 → l.length ≤ f2 →
      mentionSubF f1 l = mentionSubF f2 l := by
  induction f1 with
  | zero =>
    intro f2 l h1 _
    have hl : l = [] := List.length_eq_zero.mp (Nat.le_zero.mp h1)
    subst hl
    cases f2 <;> rfl
  | succ f ih =>
    intro f2 l h1 h2
    match l with
    | [] => cases f2 <;> rfl
    | c :: rest =>
      match f2 with
      | g + 1 =>
        simp only [List.length_cons] at h1 h2
        simp only [mentionSubF]
        by_cases hc : c = '@' ∧ rest.takeWhile isMentionChar ≠ []
        · rw [if_pos hc, if_pos hc]
          have hd := dropWhileLen_le isMentionChar rest
          rw [ih g (rest.dropWhile isMentionChar) (by omega) (by omega)]
        · rw [if_neg hc, if_neg hc, ih g rest (by omega) (by omega)]

theorem mentionSub_nil : mentionSub [] = [] := rfl

theorem takeWhile_append_all (p : Char → Bool) (run post : List Char)
    (h : ∀ c ∈ run, p c = true) :
    List.takeWhile p (run ++ post) = run ++ List.takeWhile p post := by
  induction run with
  | nil => simp
  | cons c t ih =>
    simp only [List.cons_append, List.takeWhile_cons]
    rw [h c (by simp)]
    simp only [if_true]
    rw [ih (fun d hd => h d (by simp [hd]))]

theorem dropWhile_append_all (p : Char → Bool) (run post : List Char)
    (h : ∀ c ∈ run, p c = true) :
    List.dropWhile p (run ++ post) = List.dropWhile p post := by
  induction run with
  | nil => simp
  | cons c t ih =>
    simp only [List.cons_append, List.dropWhile_cons]
    rw [h c (by simp)]
    simp only [if_true]
    exact ih (fun d hd => h d (by simp [hd]))

theorem dropWhile_head_false (p : Char → Bool) (l : List Char)
    (h : ∀ c, l.head? = some c → p c = false) :
    List.dropWhile p l = l := by
  cases l with
  | nil => rfl
  | cons c t => simp [List.dropWhile_cons, h c rfl]

/-- One replaced occurrence at the head of the scan: a `@` followed by a
non-empty all-class run, with the following character (if any) outside the
class, rewrites to `"@user"` and scanning resumes after the run. -/
theorem mentionSub_head_match (run post : List Char) (h1 : run ≠ [])
    (h2 : ∀ c ∈ run, isMentionChar c = true)
    (h3 : ∀ c, post.head? = some c → isMentionChar c = false) :
    mentionSub ('@' :: (run ++ post)) = userTok ++ mentionSub post := by
  have htake : (run ++ post).takeWhile isMentionChar = run ++ post.takeWhile isMentionChar :=
    takeWhile_append_all _ _ _ h2
  have hdrop : (run ++ post).dropWhile isMentionChar = post := by
    rw [dropWhile_append_all _ _ _ h2, dropWhile_head_false _ _ h3]
  have hne : (run ++ post).takeWhile isMentionChar ≠ [] := by
    rw [htake]
    intro hx
    rcases List.append_eq_nil.mp hx with ⟨h, _⟩
    exact h1 h
  show mentionSubF ('@' :: (run ++ post)).length ('@' :: (run ++ post)) = _
  simp only [List.length_cons, mentionSubF]
  rw [if_pos ⟨trivial, hne⟩]
  rw [hdrop]
  congr 1
  exact mentionSubF_fuel _ _ _ (by simp [List.length_append]) le_rfl

theorem tail_map (f : α → β) (l : List α) : (l.map f).tail = l.tail.map f := by
  cases l <;> rfl

/-- The chunk loop over consecutive index pairs, written over `zip` (proof
form of the `for i in range(len(_index) - 1)` iteration). -/
def chunkFold (f : String → π) (texts : List String) (idx : List Nat) : List π :=
  (idx.zip idx.tail).flatMap (fun p => (pySlice texts p.1 p.2).map f)

theorem range_pairs_flatMap (g : Nat → Nat → List π) :
    ∀ idx : List Nat,
      (List.range (idx.length - 1)).flatMap
        (fun i => g (idx.getD i 0) (idx.getD (i + 1) 0)) =
      (idx.zip idx.tail).flatMap (fun p => g p.1 p.2)
  | [] => by simp
  | [a] => by simp
  | a :: b :: t => by
    have ih := range_pairs_flatMap g (b :: t)
    show (List.range (t.length + 1)).flatMap
        (fun i => g ((a :: b :: t).getD i 0) ((a :: b :: t).getD (i + 1) 0)) = _
    rw [List.range_succ_eq_map, List.flatMap_cons, List.flatMap_map]
    have hstep : (List.range t.length).flatMap
        (fun i => g ((a :: b :: t).getD i.succ 0) ((a :: b :: t).getD (i.succ + 1) 0)) =
        (List.range t.length).flatMap
        (fun i => g ((b :: t).getD i 0) ((b :: t).getD (i + 1) 0)) :=
      List.flatMap_congr (fun i _ => by simp [List.getD_cons_succ])
    rw [hstep]
    have ih2 : (List.range t.length).flatMap
        (fun i => g ((b :: t).getD i 0) ((b :: t).getD (i + 1) 0)) =
        ((b :: t).zip t).flatMap (fun p => g p.1 p.2) := ih
    rw [ih2]
    rfl

theorem predictProbs_eq_chunkFold (f : String → π) (texts : List String) (b : Nat) :
    predictProbs f texts b = chunkFold f texts (chunkIndex texts.length b) := by
  show (List.range ((chunkIndex texts.length b).length - 1)).flatMap
      (fun i => (pySlice texts ((chunkIndex texts.length b).getD i 0)
        ((chunkIndex texts.length b).getD (i + 1) 0)).map f) = _
  exact range_pairs_flatMap (fun s e => (pySlice texts s e).map f)
    (chunkIndex texts.length b)

theorem chunkStarts_zero (b : Nat) (hb : 1 ≤ b) : chunkStarts 0 b = [] := by
  unfold chunkStarts
  rw [Nat.div_eq_of_lt (by omega)]
  rfl

theorem chunkStarts_succ (n b : Nat) (hn : 1 ≤ n) (hb : 1 ≤ b) :
    chunkStarts n b = 0 :: (chunkStarts (n - b) b).map (fun x => x + b) := by
  have hcount : (n + b - 1) / b = (n - b + b - 1) / b + 1 := by
    rcases Nat.lt_or_ge n (b + 1) with h | h
    · have h0 : n - b = 0 := by omega
      rw [h0]
      rw [show n + b - 1 = (n - 1) + b by omega, Nat.add_div_right _ (by omega)]
      rw [Nat.div_eq_of_lt (by omega), Nat.div_eq_of_lt (by omega)]
    · rw [show n + b - 1 = ((n - 1 - b) + b) + b by omega,
        show n - b + b - 1 = (n - 1 - b) + b by omega,
        Nat.add_div_right _ (by omega)]
  unfold chunkStarts
  rw [hcount, List.range_succ_eq_map]
  simp only [List.map_cons, Nat.zero_mul, List.map_map]
  congr 1
  apply List.map_congr_left
  intro i _
  simp [Function.comp, Nat.succ_mul]

theorem chunkIndex_succ (n b : Nat) (hn : 1 ≤ n) (hb : 1 ≤ b) (hbn : b ≤ n) :
    chunkIndex n b = 0 :: (chunkIndex (n - b) b).map (fun x => x + b) := by
  unfold chunkIndex
  rw [chunkStarts_succ n b hn hb, show n + 1 = (n - b + 1) + b by omega]
  simp [List.map_append]

theorem pySlice_shift (l : List α) (k a c : Nat) :
    pySlice l (a + k) (c + k) = pySlice (l.drop k) a c := by
  unfold pySlice
  rw [List.drop_drop, show k + a = a + k from Nat.add_comm k a]
  congr 1
  omega

theorem chunkFold_shift (f : String → π) (texts : List String) (b : Nat)
    (M : List Nat) :
    chunkFold f texts (M.map (fun x => x + b)) = chunkFold f (texts.drop b) M := by
  unfold chunkFold
  rw [tail_map, List.zip_map, List.flatMap_map]
  apply List.flatMap_congr
  intro p _
  simp only [Function.comp, Prod.map]
  rw [pySlice_shift]

theorem predictProbs_eq_map (f : String → π) (b : Nat) (hb : 1 ≤ b)
    (texts : List String) : predictProbs f texts b = texts.map f := by
  rw [predictProbs_eq_chunkFold]
  rcases Nat.eq_zero_or_pos texts.length with h0 | hpos
  · have he : texts = [] := List.length_eq_zero.mp h0
    subst he
    show chunkFold f [] (chunkIndex 0 b) = List.map f []
    unfold chunkIndex
    rw [chunkStarts_zero b hb]
    rfl
  · rcases Nat.lt_or_ge texts.length (b + 1) with hsmall | hbig
    · have hst : chunkStarts texts.length b = [0] := by
        rw [chunkStarts_succ _ b hpos hb, show texts.length - b = 0 by omega,
          chunkStarts_zero b hb]
        rfl
      unfold chunkIndex
      rw [hst]
      show (pySlice texts 0 (texts.length + 1)).map f ++ [] = _
      unfold pySlice
      rw [List.drop_zero, Nat.sub_zero, List.take_of_length_le (by omega), List.append_nil]
    · have hrec := predictProbs_eq_map f b hb (texts.drop b)
      rw [predictProbs_eq_chunkFold] at hrec
      simp only [List.length_drop] at hrec
      rw [chunkIndex_succ _ b hpos hb (by omega)]
      have hM : chunkIndex (texts.length - b) b =
          0 :: ((chunkStarts (texts.length - b - b) b).map (fun x => x + b) ++
            [texts.length - b + 1]) := by
        unfold chunkIndex
        rw [chunkStarts_succ _ b (by omega) hb]
        rfl
      rw [hM]
      show (pySlice texts 0 (0 + b)).map f ++
        chunkFold f texts ((0 :: _).map (fun x => x + b)) = _
      rw [chunkFold_shift, ← hM, hrec]
      unfold pySlice
      rw [List.drop_zero, Nat.zero_add, Nat.sub_zero, ← List.map_append,
        List.take_append_drop]
termination_by texts.length
decreasing_by
  simp only [List.length_drop]
  omega

theorem mapOption_get? (f : α → Option β) :
    ∀ (l : List α) (out : List β), mapOption f l = some out →
      out.length = l.length ∧ ∀ i : Nat, out.get? i = (l.get? i).bind f := by
  intro l
  induction l with
  | nil =>
    intro out h
    unfold mapOption at h
    cases h
    exact ⟨rfl, fun i => by simp⟩
  | cons a t ih =>
    intro out h
    unfold mapOption at h
    cases hfa : f a with
    | none => rw [hfa] at h; cases h
    | some b =>
      cases hmt : mapOption f t with
      | none => rw [hfa, hmt] at h; cases h
      | some bs =>
        rw [hfa, hmt] at h
        cases h
        obtain ⟨hlen, hget⟩ := ih bs hmt
        refine ⟨by simp [hlen], fun i => ?_⟩
        cases i with
        | zero => simp [hfa]
        | succ j => simpa using hget j

theorem mapOption_isSome (f : α → Option β) :
    ∀ l : List α, (∀ a ∈ l, (f a).isSome) → ∃ out, mapOption f l = some out := by
  intro l
  induction l with
  | nil => exact fun _ => ⟨[], rfl⟩
  | cons a t ih =>
    intro h
    obtain ⟨b, hb⟩ := Option.isSome_iff_exists.mp (h a (by simp))
    obtain ⟨bs, hbs⟩ := ih (fun x hx => h x (by simp [hx]))
    refine ⟨b :: bs, ?_⟩
    unfold mapOption
    rw [hb, hbs]

theorem foldlMax_spec (l : List ℚ) : ∀ a : ℚ,
    (l.foldl (fun acc x => if acc < x then x else acc) a = a ∨
      l.foldl (fun acc x => if acc < x then x else acc) a ∈ l) ∧
    a ≤ l.foldl (fun acc x => if acc < x then x else acc) a ∧
    ∀ x ∈ l, x ≤ l.foldl (fun acc x => if acc < x then x else acc) a := by
  induction l with
  | nil => exact fun a => ⟨Or.inl rfl, le_rfl, by simp⟩
  | cons y t ih =>
    intro a
    simp only [List.foldl_cons]
    by_cases hay : a < y
    · simp only [if_pos hay]
      obtain ⟨hmem, hle, hall⟩ := ih y
      refine ⟨?_, le_trans (le_of_lt hay) hle, ?_⟩
      · rcases hmem with h | h
        · exact Or.inr (by simp [h])
        · exact Or.inr (by simp [h])
      · intro x hx
        rcases List.mem_cons.mp hx with rfl | hx2
        · exact hle
        · exact hall x hx2
    · simp only [if_neg hay]
      obtain ⟨hmem, hle, hall⟩ := ih a
      refine ⟨?_, hle, ?_⟩
      · rcases hmem with h | h
        · exact Or.inl h
        · exact Or.inr (by simp [h])
      · intro x hx
        rcases List.mem_cons.mp hx with rfl | hx2
        · exact le_trans (le_of_not_lt hay) hle
        · exact hall x hx2

theorem pyMax_spec (l : List ℚ) (hl : l ≠ []) :
    ∃ v, pyMax l = some v ∧ v ∈ l ∧ ∀ x ∈ l, x ≤ v := by
  match l, hl with
  | a :: t, _ =>
    obtain ⟨hmem, hle, hall⟩ := foldlMax_spec t a
    refine ⟨_, rfl, ?_, ?_⟩
    · rcases hmem with h | h
      · rw [h]; simp
      · simp [h]
    · intro x hx
      rcases List.mem_cons.mp hx with rfl | hx2
      · exact hle
      · exact hall x hx2

theorem get_ne_of_lt_indexOf [DecidableEq α] :
    ∀ (l : List α) (v : α) (i : Nat) (hi : i < l.length),
      i < List.indexOf v l → l.get ⟨i, hi⟩ ≠ v := by
  intro l
  induction l with
  | nil => intro v i hi; simp at hi
  | cons a t ih =>
    intro v i hi hlt
    by_cases hav : a = v
    · subst hav
      rw [List.indexOf_cons_self] at hlt
      omega
    · rw [List.indexOf_cons_ne t hav] at hlt
      cases i with
      | zero => simpa using hav
      | succ j => simpa using ih v j (by simpa using hi) (by omega)

theorem pyMaxIndex_spec (l : List ℚ) (hl : l ≠ []) :
    ∃ j, ∃ hj : j < l.length, pyMaxIndex l = some j ∧
      (∀ i (hi : i < l.length), l.get ⟨i, hi⟩ ≤ l.get ⟨j, hj⟩) ∧
      ∀ i (hij : i < j), l.get ⟨i, Nat.lt_trans hij hj⟩ < l.get ⟨j, hj⟩ := by
  obtain ⟨v, hpm, hvmem, hvmax⟩ := pyMax_spec l hl
  have hjlen : List.indexOf v l < l.length := List.indexOf_lt_length.mpr hvmem
  have hgetj : l.get ⟨List.indexOf v l, hjlen⟩ = v := List.indexOf_get hjlen
  refine ⟨List.indexOf v l, hjlen, ?_, ?_, ?_⟩
  · unfold pyMaxIndex
    rw [hpm]
    rfl
  · intro i hi
    rw [hgetj]
    exact hvmax _ (l.get_mem i hi)
  · intro i hij
    rw [hgetj]
    exact lt_of_le_of_ne (hvmax _ (l.get_mem i _))
      (get_ne_of_lt_indexOf l v i (Nat.lt_trans hij hjlen) hij)

theorem pyDictInsert_not_mem (d : List (String × ℚ)) (k : String) (v : ℚ)
    (h : ∀ kv ∈ d, kv.1 ≠ k) : pyDictInsert d k v = d ++ [(k, v)] := by
  unfold pyDictInsert
  rw [if_neg]
  intro hany
  rw [List.any_eq_true] at hany
  obtain ⟨kv, hkv, hbeq⟩ := hany
  exact h kv hkv (by simpa using hbeq)

theorem pyDict_append_nodup :
    ∀ (l acc : List (String × ℚ)),
      (l.map Prod.fst).Nodup →
      (∀ kv ∈ acc, ∀ kv2 ∈ l, kv.1 ≠ kv2.1) →
      l.foldl (fun d kv => pyDictInsert d kv.1 kv.2) acc = acc ++ l := by
  intro l
  induction l with
  | nil => intro acc _ _; simp
  | cons p t ih =>
    intro acc hnd hdis
    simp only [List.foldl_cons]
    rw [List.map_cons] at hnd
    obtain ⟨hhd, htl⟩ := List.nodup_cons.mp hnd
    rw [pyDictInsert_not_mem acc p.1 p.2 (fun kv hkv => hdis kv hkv p (by simp))]
    rw [ih (acc ++ [(p.1, p.2)]) htl ?_]
    · simp
    · intro kv hkv kv2 hkv2
      rcases List.mem_append.mp hkv with hin | hone
      · exact hdis kv hin kv2 (by simp [hkv2])
      · have hkvp : kv = (p.1, p.2) := List.mem_singleton.mp hone
        subst hkvp
        intro hfst
        exact hhd (by rw [show p.1 = kv2.1 from hfst]; exact List.mem_map_of_mem Prod.fst hkv2)

theorem pyDict_eq_self (l : List (String × ℚ)) (h : (l.map Prod.fst).Nodup) :
    pyDict l = l := by
  unfold pyDict
  rw [pyDict_append_nodup l [] h (by simp)]
  simp

theorem formatRecord_isSome (m : Classifier) (rp : Bool) (pr : List ℚ)
    (h : pr ≠ []) : (formatRecord m rp pr).isSome := by
  unfold formatRecord
  by_cases hm : m.multiLabel
  · simp [hm]
  · obtain ⟨j, hj, hpm, _, _⟩ := pyMaxIndex_spec pr h
    simp only [Bool.not_eq_true] at hm
    simp [hm, hpm]

/-- `predict` on a list input with a positive resolved batch size, reduced to
the per-example pipeline (chunking collapsed by `predictProbs_eq_map`). -/
theorem predict_list_unfold (m : Classifier) (rp : Bool) (texts : List String)
    (bop : Option Nat) (bres : Nat) (hres : bres = bop.getD texts.length)
    (hpos : 1 ≤ bres) :
    predict m (TextInput.list texts) bop rp =
      match mapOption (formatRecord m rp)
          (texts.map (fun t => m.fwd (preprocess m.findUrls t))) with
      | none => none
      | some out => some (PredictOutput.records out) := by
  have h1 : predict m (TextInput.list texts) bop rp =
      (if bop.getD (texts.map (preprocess m.findUrls)).length = 0 then none
       else
        match mapOption (formatRecord m rp)
            (predictProbs m.fwd (texts.map (preprocess m.findUrls))
              (bop.getD (texts.map (preprocess m.findUrls)).length)) with
        | none => none
        | some out => some (PredictOutput.records out)) := rfl
  rw [h1]
  have hlen : (texts.map (preprocess m.findUrls)).length = texts.length :=
    List.length_map _ _
  rw [hlen, ← hres, if_neg (by omega), predictProbs_eq_map m.fwd bres hpos,
    List.map_map]
  rfl

/-- `predict` on a single-string input with a positive resolved batch size. -/
theorem predict_str_unfold (m : Classifier) (rp : Bool) (s : String)
    (bop : Option Nat) (bres : Nat) (hres : bres = bop.getD 1) (hpos : 1 ≤ bres) :
    predict m (TextInput.str s) bop rp =
      match formatRecord m rp (m.fwd (preprocess m.findUrls s)) with
      | none => none
      | some r => some (PredictOutput.record r) := by
  have h1 : predict m (TextInput.str s) bop rp =
      (if bop.getD 1 = 0 then none
       else
        match mapOption (formatRecord m rp)
            (predictProbs m.fwd [preprocess m.findUrls s] (bop.getD 1)) with
        | none => none
        | some out =>
          match out with
          | [] => none
          | r :: _ => some (PredictOutput.record r)) := rfl
  rw [h1, ← hres, if_neg (by omega), predictProbs_eq_map m.fwd bres hpos]
  show (match mapOption (formatRecord m rp)
      [m.fwd (preprocess m.findUrls s)] with
    | none => none
    | some out =>
      match out with
      | [] => none
      | r :: _ => some (PredictOutput.record r)) = _
  cases hfv : formatRecord m rp (m.fwd (preprocess m.findUrls s)) with
  | none => simp [mapOption, hfv]
  | some r => simp [mapOption, hfv]

/-- Records returned for a list input: existence, length and per-index
characterization, given nonempty probability vectors. -/
theorem predict_list_records (m : Classifier) (rp : Bool) (texts : List String)
    (bop : Option Nat) (bres : Nat) (hres : bres = bop.getD texts.length)
    (hpos : 1 ≤ bres) (hne : ∀ t, m.fwd t ≠ []) :
    ∃ out, predict m (TextInput.list texts) bop rp =
        some (PredictOutput.records out) ∧
      out.length = texts.length ∧
      ∀ i : Nat, out.get? i =
        ((texts.map (fun t => m.fwd (preprocess m.findUrls t))).get? i).bind
          (formatRecord m rp) := by
  rw [predict_list_unfold m rp texts bop bres hres hpos]
  obtain ⟨out, hout⟩ := mapOption_isSome (formatRecord m rp)
    (texts.map (fun t => m.fwd (preprocess m.findUrls t)))
    (fun a ha => by
      obtain ⟨t, _, hta⟩ := List.mem_map.mp ha
      exact formatRecord_isSome m rp a (hta ▸ hne (preprocess m.findUrls t)))
  obtain ⟨hlen, hget⟩ := mapOption_get? _ _ _ hout
  rw [hout]
  exact ⟨out, rfl, by simpa using hlen, hget⟩

/-! ### Concrete instances for witnesses -/

/-- A tiny concrete single-label classifier: two classes, constant
probability vector, no URLs detected. -/
def cTest : Classifier :=
  { fwd := fun _ => [(0 : ℚ), 3],
    findUrls := fun _ => [],
    idToLabel := fun n => toString n,
    multiLabel := false }

/-- A tiny concrete multi-label classifier. -/
def cTestMulti : Classifier :=
  { fwd := fun _ => [(0 : ℚ), 3],
    findUrls := fun _ => [],
    idToLabel := fun n => toString n,
    multiLabel := true }

/-- A loader that succeeds at the first (network-permitted) attempt. -/
def loadOkTest : Bool → Except String Nat := fun _ => Except.ok 7

/-- A loader that fails both attempts, with distinct errors. -/
def loadFailTest : Bool → Except String Nat :=
  fun b => if b then Except.error "offline" else Except.error "net"

/-! ### Claim theorems -/

/-- Claim C1: for every non-empty input list and batch size `None` or `k ≥ 1`
(with nonempty probability vectors, i.e. a positive head width), `predict`
returns a record list of the same length as the input, and record `i` is
computed from input string `i` (preprocess, per-example pipeline, format);
moreover for any positive batch size the chunk slices
`[0, b), [b, 2b), …` concatenate, in order, to exactly the input list —
full coverage, no overlap, no gap (first conjunct, with the per-example
pipeline replaced by the singleton function so that `predictProbs` returns
the concatenation of the chunk slices themselves). -/
theorem predict_chunking_pointwise (m : Classifier) (rp : Bool)
    (texts : List String) (b : Option Nat) (hts : texts ≠ [])
    (hb : ∀ k, b = some k → 1 ≤ k) (hne : ∀ t, m.fwd t ≠ []) :
    (∀ (ts : List String) (k : Nat), 1 ≤ k → predictProbs (fun t => t) ts k = ts) ∧
    ∃ out, predict m (TextInput.list texts) b rp =
        some (PredictOutput.records out) ∧
      out.length = texts.length ∧
      ∀ i : Nat, i < texts.length →
        out.get? i =
          formatRecord m rp (m.fwd (preprocess m.findUrls (texts.getD i ""))) := by
  have hcover : ∀ (ts : List String) (k : Nat), 1 ≤ k →
      predictProbs (fun t => t) ts k = ts := by
    intro ts k hk
    rw [predictProbs_eq_map (fun t => t) k hk ts]
    exact List.map_id' ts
  refine ⟨hcover, ?_⟩
  have hpos : 1 ≤ texts.length := List.length_pos.mpr hts
  have hbres : ∃ bres, bres = b.getD texts.length ∧ 1 ≤ bres := by
    cases b with
    | none => exact ⟨texts.length, rfl, hpos⟩
    | some k => exact ⟨k, rfl, hb k rfl⟩
  obtain ⟨bres, hres, hbpos⟩ := hbres
  obtain ⟨out, hpred, hlen, hget⟩ :=
    predict_list_records m rp texts b bres hres hbpos hne
  refine ⟨out, hpred, hlen, fun i hi => ?_⟩
  rw [hget i, List.get?_map, List.get?_eq_get hi]
  rw [show texts.getD i "" = texts.get ⟨i, hi⟩ by
    rw [List.getD_eq_get?, List.get?_eq_get hi]
    rfl]
  rfl

/-- Claim C1 witness: a concrete one-element instance. -/
theorem predict_chunking_pointwise_witness :
    (∀ (ts : List String) (k : Nat), 1 ≤ k →
      predictProbs (fun t => t) ts k = ts) ∧
    ∃ out, predict cTest (TextInput.list ["a"]) none false =
        some (PredictOutput.records out) ∧
      out.length = 1 ∧
      ∀ i : Nat, i < 1 →
        out.get? i =
          formatRecord cTest false
            (cTest.fwd (preprocess cTest.findUrls (["a"].getD i ""))) :=
  predict_chunking_pointwise cTest false ["a"] none (by decide)
    (fun k h => by cases h) (fun t => by simp [cTest])

/-- Claim C2 counterexample: on the empty input list, an explicit
`batch_size = 1` returns `[]`, while `batch_size = len(texts) = 0` raises
(`ValueError`, `range` step zero) — so the two calls are not identical for
every list and every `k ≥ 1`. -/
theorem predict_batch_invariance_cex :
    predict cTest (TextInput.list []) (some 1) false ≠
      predict cTest (TextInput.list [])
        (some (List.length ([] : List String))) false := by
  decide

/-- Claim C2 (amended): for every NON-EMPTY input list and every `k ≥ 1`,
`predict(texts, batch_size=k)` equals `predict(texts, batch_size=len(texts))`,
which is also the default `batch_size=None` behaviour (the per-example
pipeline being opaque). -/
theorem predict_batch_invariance (m : Classifier) (rp : Bool)
    (texts : List String) (k : Nat) (hts : texts ≠ []) (hk : 1 ≤ k) :
    predict m (TextInput.list texts) (some k) rp =
      predict m (TextInput.list texts) (some texts.length) rp ∧
    predict m (TextInput.list texts) (some k) rp =
      predict m (TextInput.list texts) none rp := by
  have hpos : 1 ≤ texts.length := List.length_pos.mpr hts
  rw [predict_list_unfold m rp texts (some k) k rfl hk,
    predict_list_unfold m rp texts (some texts.length) texts.length rfl hpos,
    predict_list_unfold m rp texts none texts.length rfl hpos]
  exact ⟨rfl, rfl⟩

/-- Claim C2 witness: batch sizes 2 and 3 agree on a 3-element input, and
batch size 2 agrees with the default. -/
theorem predict_batch_invariance_witness :
    predict cTest (TextInput.list ["a", "b", "c"]) (some 2) false =
      predict cTest (TextInput.list ["a", "b", "c"]) (some 3) false ∧
    predict cTest (TextInput.list ["a", "b", "c"]) (some 2) false =
      predict cTest (TextInput.list ["a", "b", "c"]) none false :=
  predict_batch_invariance cTest false ["a", "b", "c"] 2 (by decide) (by decide)

/-- Claim C10: on the empty input list, the default `batch_size=None`
resolves to step 0 and raises, while any explicit `batch_size ≥ 1` returns
the empty record list. -/
theorem predict_empty_list (m : Classifier) (rp : Bool) :
    predict m (TextInput.list []) none rp = none ∧
    ∀ b : Nat, 1 ≤ b →
      predict m (TextInput.list []) (some b) rp =
        some (PredictOutput.records []) := by
  constructor
  · rfl
  · intro b hb
    rw [predict_list_unfold m rp [] (some b) b rfl hb]
    rfl

/-- Claim C10 witness. -/
theorem predict_empty_list_witness :
    predict cTest (TextInput.list []) (some 1) true =
      some (PredictOutput.records []) :=
  (predict_empty_list cTest true).2 1 (Nat.le_refl 1)

/-- Claim C3: in multi-label mode the `label` field is the set of exactly
those labels whose probability strictly exceeds `0.5`: every listed label has
such an index, and every index above the threshold contributes its label —
no omissions, no extras (the set may be empty or have several entries; see
the witness). -/
theorem multiLabel_threshold (m : Classifier) (rp : Bool) (pr : List ℚ)
    (hml : m.multiLabel = true) :
    ∃ rec L, formatRecord m rp pr = some rec ∧
      rec.label = LabelField.multi L ∧
      (∀ lab ∈ L, ∃ n, ∃ hn : n < pr.length,
        m.idToLabel n = lab ∧ (1 : ℚ)/2 < pr.get ⟨n, hn⟩) ∧
      (∀ n (hn : n < pr.length), (1 : ℚ)/2 < pr.get ⟨n, hn⟩ →
        m.idToLabel n ∈ L) := by
  have hform : formatRecord m rp pr = some
      { label := LabelField.multi
          ((pr.enum.filter (fun np => decide (half < np.2))).map
            (fun np => m.idToLabel np.1)),
        probability := if rp then
          some (pyDict (pr.enum.map (fun np => (m.idToLabel np.1, np.2))))
          else none } := by
    unfold formatRecord
    rw [hml]
    simp
  refine ⟨_, _, hform, rfl, ?_, ?_⟩
  · intro lab hlab
    obtain ⟨np, hnpf, hnpl⟩ := List.mem_map.mp hlab
    obtain ⟨hnpe, hnpgt⟩ := List.mem_filter.mp hnpf
    have hsome : pr[np.1]? = some np.2 := List.mem_enum_iff_getElem?.mp hnpe
    obtain ⟨hn, hval⟩ := List.getElem?_eq_some.mp hsome
    refine ⟨np.1, hn, hnpl, ?_⟩
    have hlt : half < np.2 := of_decide_eq_true hnpgt
    rw [half_eq] at hlt
    rw [List.get_eq_getElem, hval]
    exact hlt
  · intro n hn hgt
    refine List.mem_map.mpr ⟨(n, pr.get ⟨n, hn⟩), ?_, rfl⟩
    refine List.mem_filter.mpr ⟨?_, ?_⟩
    · exact List.mem_enum_iff_getElem?.mpr
        (List.getElem?_eq_some.mpr ⟨hn, (List.get_eq_getElem pr ⟨n, hn⟩).symm⟩)
    · exact decide_eq_true (by rw [half_eq]; exact hgt)

/-- Claim C3 witness: a vector with one entry above and one below the
threshold yields exactly the one corresponding label, and the instantiated
characterization holds. -/
theorem multiLabel_threshold_witness :
    ∃ rec L, formatRecord cTestMulti true [(0 : ℚ), 3] = some rec ∧
      rec.label = LabelField.multi L ∧
      (∀ lab ∈ L, ∃ n, ∃ hn : n < 2,
        cTestMulti.idToLabel n = lab ∧ (1 : ℚ)/2 < [(0 : ℚ), 3].get ⟨n, hn⟩) ∧
      (∀ n (hn : n < 2), (1 : ℚ)/2 < [(0 : ℚ), 3].get ⟨n, hn⟩ →
        cTestMulti.idToLabel n ∈ L) :=
  multiLabel_threshold cTestMulti true [(0 : ℚ), 3] rfl

/-- Claim C4: in single-label mode the returned label is the one at the
first index attaining the maximal probability (strictly greater than every
earlier entry, at least every other entry), and with `return_probability`
the attached mapping has one entry per class — cardinality equal to the
probability vector's width — provided the label map is duplicate-free on the
head's index range. -/
theorem singleLabel_argmax (m : Classifier) (pr : List ℚ)
    (hml : m.multiLabel = false) (hpr : pr ≠ [])
    (hnd : ((List.range pr.length).map m.idToLabel).Nodup) :
    ∃ rec, formatRecord m true pr = some rec ∧
      ∃ j, ∃ hj : j < pr.length,
        rec.label = LabelField.single (m.idToLabel j) ∧
        (∀ i (hi : i < pr.length), pr.get ⟨i, hi⟩ ≤ pr.get ⟨j, hj⟩) ∧
        (∀ i (hij : i < j), pr.get ⟨i, Nat.lt_trans hij hj⟩ < pr.get ⟨j, hj⟩) ∧
        ∃ d, rec.probability = some d ∧ d.length = pr.length := by
  obtain ⟨j, hj, hpmi, hmax, hfirst⟩ := pyMaxIndex_spec pr hpr
  have hform : formatRecord m true pr = some
      { label := LabelField.single (m.idToLabel j),
        probability :=
          some (pyDict (pr.enum.map (fun np => (m.idToLabel np.1, np.2)))) } := by
    unfold formatRecord
    rw [hml]
    simp [hpmi]
  have hkeys : ((pr.enum.map (fun np => (m.idToLabel np.1, np.2))).map
      Prod.fst).Nodup := by
    rw [List.map_map]
    have h1 : (Prod.fst ∘ fun np : Nat × ℚ => (m.idToLabel np.1, np.2)) =
        (fun np : Nat × ℚ => m.idToLabel np.1) := rfl
    have h2 : pr.enum.map (fun np : Nat × ℚ => m.idToLabel np.1) =
        (pr.enum.map Prod.fst).map m.idToLabel := by
      rw [List.map_map]
      rfl
    rw [h1, h2, List.enum_map_fst]
    exact hnd
  refine ⟨_, hform, j, hj, rfl, hmax, hfirst, _, rfl, ?_⟩
  rw [pyDict_eq_self _ hkeys]
  simp

/-- Claim C4 witness: on the vector `[0, 3]` the argmax characterization and
the two-entry probability mapping are obtained from the theorem. -/
theorem singleLabel_argmax_witness :
    ∃ rec, formatRecord cTest true [(0 : ℚ), 3] = some rec ∧
      ∃ j, ∃ hj : j < 2,
        rec.label = LabelField.single (cTest.idToLabel j) ∧
        (∀ i (hi : i < 2),
          [(0 : ℚ), 3].get ⟨i, hi⟩ ≤ [(0 : ℚ), 3].get ⟨j, hj⟩) ∧
        (∀ i (hij : i < j),
          [(0 : ℚ), 3].get ⟨i, Nat.lt_trans hij hj⟩ < [(0 : ℚ), 3].get ⟨j, hj⟩) ∧
        ∃ d, rec.probability = some d ∧ d.length = 2 :=
  singleLabel_argmax cTest [(0 : ℚ), 3] rfl (by decide) (by decide)

/-- Claim C5: the return shape is decided solely by whether the original
input was a single string — a successful call on a string input yields a
bare record (never a length-1 list), a successful call on a list input
yields a list of records of the input's length; and every string input
(valid batch size, nonempty probability vectors) does succeed with a bare
record. -/
theorem predict_shape (m : Classifier) (b : Option Nat) (rp : Bool) :
    (∀ s o, predict m (TextInput.str s) b rp = some o →
      ∃ r, o = PredictOutput.record r) ∧
    (∀ l o, predict m (TextInput.list l) b rp = some o →
      ∃ rs, o = PredictOutput.records rs ∧ rs.length = l.length) ∧
    (∀ s, (b = none ∨ ∃ k, b = some k ∧ 1 ≤ k) → (∀ t, m.fwd t ≠ []) →
      ∃ r, predict m (TextInput.str s) b rp = some (PredictOutput.record r)) := by
  refine ⟨?_, ?_, ?_⟩
  · intro s o h
    have h1 : (if b.getD 1 = 0 then none
       else
        match mapOption (formatRecord m rp)
            (predictProbs m.fwd [preprocess m.findUrls s] (b.getD 1)) with
        | none => none
        | some out =>
          match out with
          | [] => none
          | r :: _ => some (PredictOutput.record r)) = some o := h
    by_cases hb0 : b.getD 1 = 0
    · rw [if_pos hb0] at h1
      cases h1
    · rw [if_neg hb0] at h1
      cases hmo : mapOption (formatRecord m rp)
          (predictProbs m.fwd [preprocess m.findUrls s] (b.getD 1)) with
      | none => rw [hmo] at h1; cases h1
      | some out =>
        rw [hmo] at h1
        cases out with
        | nil => cases h1
        | cons r rest =>
          cases h1
          exact ⟨r, rfl⟩
  · intro l o h
    have h1 : (if b.getD (l.map (preprocess m.findUrls)).length = 0 then none
       else
        match mapOption (formatRecord m rp)
            (predictProbs m.fwd (l.map (preprocess m.findUrls))
              (b.getD (l.map (preprocess m.findUrls)).length)) with
        | none => none
        | some out => some (PredictOutput.records out)) = some o := h
    by_cases hb0 : b.getD (l.map (preprocess m.findUrls)).length = 0
    · rw [if_pos hb0] at h1
      cases h1
    · rw [if_neg hb0] at h1
      rw [predictProbs_eq_map m.fwd _ (by omega)] at h1
      cases hmo : mapOption (formatRecord m rp)
          ((l.map (preprocess m.findUrls)).map m.fwd) with
      | none => rw [hmo] at h1; cases h1
      | some out =>
        rw [hmo] at h1
        cases h1
        obtain ⟨hlen, _⟩ := mapOption_get? _ _ _ hmo
        refine ⟨out, rfl, ?_⟩
        rw [hlen]
        simp
  · intro s hb hne
    have hbres : ∃ bres, bres = b.getD 1 ∧ 1 ≤ bres := by
      rcases hb with rfl | ⟨k, rfl, hk⟩
      · exact ⟨1, rfl, le_rfl⟩
      · exact ⟨k, rfl, hk⟩
    obtain ⟨bres, hres, hbpos⟩ := hbres
    rw [predict_str_unfold m rp s b bres hres hbpos]
    obtain ⟨r, hr⟩ := Option.isSome_iff_exists.mp
      (formatRecord_isSome m rp _ (hne (preprocess m.findUrls s)))
    rw [hr]
    exact ⟨r, rfl⟩

/-- Claim C5 witness: a concrete string input produces a bare record. -/
theorem predict_shape_witness :
    ∃ r, predict cTest (TextInput.str "hello") none false =
      some (PredictOutput.record r) :=
  (predict_shape cTest none false).2.2 "hello" (Or.inl rfl)
    (fun t => by simp [cTest])

/-- Claim C6 counterexample: the regex character class is `[A-Z,0-9]`, not
"letters or digits" — `@a` (a lowercase letter after the `@`, which the
claim requires to be rewritten to `@user`) passes through unchanged, while
`@,` (a comma, neither letter nor digit) IS rewritten. -/
theorem mention_rewrite_cex :
    preprocess (fun _ => []) "@a" = "@a" ∧
    preprocess (fun _ => []) "@a" ≠ "@user" ∧
    preprocess (fun _ => []) "@," = "@user" := by
  decide

/-- Claim C6 (amended): `preprocess` replaces every token consisting of `@`
followed by one or more characters from the class uppercase `A`-`Z`, comma,
`0`-`9` (maximal such run) by the literal `@user`, and this mention rewrite
is applied before the URL rewrite (second conjunct: `preprocess` is exactly
the URL-replacement fold applied to the output of the mention rewrite). -/
theorem mention_rewrite_amended (run post : List Char) (h1 : run ≠ [])
    (h2 : ∀ c ∈ run, isMentionChar c = true)
    (h3 : ∀ c, post.head? = some c → isMentionChar c = false) :
    mentionSub ('@' :: (run ++ post)) = userTok ++ mentionSub post ∧
    ∀ (f : String → List String) (t : String),
      preprocess f t =
        (f (mentionSubStr t)).foldl
          (fun cur url => pyReplaceStr cur url "http") (mentionSubStr t) :=
  ⟨mentionSub_head_match run post h1 h2 h3, fun _ _ => rfl⟩

/-- Claim C6 (amended) witness: the run `"A1,"` before a non-class character. -/
theorem mention_rewrite_amended_witness :
    mentionSub ('@' :: (['A', '1', ','] ++ ['x'])) =
      userTok ++ mentionSub ['x'] :=
  (mention_rewrite_amended ['A', '1', ','] ['x'] (by decide) (by decide)
    (fun c hc => by
      simp only [List.head?_cons] at hc
      injection hc with hx
      subst hx
      decide)).1

/-- Claim C8: `download_id2label` — when the cache file is absent, the fetch
runs (`true` flag), the mapping's keys are the dense stringified range
`"0".."N-1"` (0-based row indices), its values are the second column of the
tab-separated resource rows, and the mapping is persisted; when the cache
file exists, it is read back unchanged with no fetch. -/
theorem download_id2label_spec (cached : Option (List (String × String)))
    (resource : String) :
    (cached = none →
      (download_id2label cached resource).2.2 = true ∧
      (download_id2label cached resource).1 =
        (parseMapping resource).enum.map (fun nl => (toString nl.1, nl.2)) ∧
      (download_id2label cached resource).1.map Prod.fst =
        (List.range (parseMapping resource).length).map toString ∧
      (download_id2label cached resource).2.1 =
        (download_id2label cached resource).1) ∧
    (∀ mp, cached = some mp →
      (download_id2label cached resource).2.2 = false ∧
      (download_id2label cached resource).1 = mp ∧
      (download_id2label cached resource).2.1 = mp) := by
  constructor
  · rintro rfl
    refine ⟨rfl, rfl, ?_, rfl⟩
    show ((parseMapping resource).enum.map
      (fun nl => (toString nl.1, nl.2))).map Prod.fst = _
    rw [List.map_map]
    have h1 : (Prod.fst ∘ fun nl : Nat × String => (toString nl.1, nl.2)) =
        (fun nl : Nat × String => toString nl.1) := rfl
    have h2 : (parseMapping resource).enum.map
        (fun nl : Nat × String => toString nl.1) =
        ((parseMapping resource).enum.map Prod.fst).map toString := by
      rw [List.map_map]
      rfl
    rw [h1, h2, List.enum_map_fst]
  · rintro mp rfl
    exact ⟨rfl, rfl, rfl⟩

/-- Claim C8 witness: a two-row resource on a cold cache fetches and yields
keys `"0", "1"`; a warm cache is read back verbatim with no fetch. -/
theorem download_id2label_spec_witness :
    (download_id2label none "x\tneg\ny\tpos").2.2 = true ∧
    (download_id2label none "x\tneg\ny\tpos").1.map Prod.fst =
      (List.range (parseMapping "x\tneg\ny\tpos").length).map toString ∧
    (download_id2label (some [("0", "neg")]) "x\tneg\ny\tpos").2.2 = false ∧
    (download_id2label (some [("0", "neg")]) "x\tneg\ny\tpos").1 =
      [("0", "neg")] :=
  ⟨((download_id2label_spec none "x\tneg\ny\tpos").1 rfl).1,
   ((download_id2label_spec none "x\tneg\ny\tpos").1 rfl).2.2.1,
   ((download_id2label_spec (some [("0", "neg")]) "x\tneg\ny\tpos").2
      [("0", "neg")] rfl).1,
   ((download_id2label_spec (some [("0", "neg")]) "x\tneg\ny\tpos").2
      [("0", "neg")] rfl).2.1⟩

/-- Claim C9: construction first attempts the load with network access
permitted; if that succeeds its result is returned; on any failure exactly
one retry runs with network access disabled (`local_files_only=True`) and
its outcome — success or error — is returned unhandled (so a failing retry
propagates to the caller). -/
theorem initLoad_retry (loadModel : Bool → Except ε α) :
    (∀ v, loadModel false = Except.ok v →
      initLoadModel loadModel = Except.ok v) ∧
    ((∃ e, loadModel false = Except.error e) →
      initLoadModel loadModel = loadModel true) := by
  constructor
  · intro v hv
    unfold initLoadModel
    rw [hv]
  · rintro ⟨e, he⟩
    unfold initLoadModel
    rw [he]

/-- Claim C9 witness: a first-attempt success is returned as is; a loader
failing both attempts returns the retry's (local-only) error. -/
theorem initLoad_retry_witness :
    initLoadModel loadOkTest = Except.ok 7 ∧
    initLoadModel loadFailTest = loadFailTest true ∧
    loadFailTest true = Except.error "offline" :=
  ⟨(initLoad_retry loadOkTest).1 7 rfl,
   (initLoad_retry loadFailTest).2 ⟨"net", rfl⟩, rfl⟩

end TweetNLP
